import Mathlib

/-!
Verification of the model-type extraction and registry-generation core of
the ai-models repository (src/extract-model-types.ts), as a shallow
embedding over `List Char` strings.

The embedding covers:
- the six type-alias naming-convention patterns applied by
  extractModelTypes (JS regexes of the shape
  type\s+(\w*Suffix)\s*=\s*([^;]+); run with the g flag),
- the single-quoted literal extractor (regex ([^']+) between quotes),
- the keyword-based category classifier,
- per-provider first-occurrence deduplication by alias name,
- the flat ALL_MODELS list and nested AI_SDK_MODELS registry emitted by
  generateModelTypesFile, and the emitted query helpers
  getModelsByProvider / getModelsByCategory.
-/

/-- Strings are modelled as lists of characters. -/
abbrev Str := List Char

/-- The single-quote character, written via its code point. -/
def squote : Char := Char.ofNat 39

/-- Render a single-quoted literal fragment, as it appears in a
type-alias definition text. -/
def quoted (s : String) : Str := squote :: s.toList ++ [squote]

/-- JS regex word character class \w, which is exactly ASCII
[A-Za-z0-9_]. -/
def isWordChar (c : Char) : Bool := c.isAlphanum || c == '_'

/-- JS regex whitespace class \s (ASCII whitespace plus the Unicode
space characters JS includes). -/
def isSpaceChar (c : Char) : Bool :=
  c == ' ' || c == '\t' || c == '\n' || c == '\r' ||
  c == '\x0b' || c == '\x0c' ||
  c == '\u00A0' || c == '\u1680' ||
  (('\u2000' ≤ c) && (c ≤ '\u200A')) ||
  c == '\u2028' || c == '\u2029' || c == '\u202F' || c == '\u205F' ||
  c == '\u3000' || c == '\uFEFF'

/-- Does `pre` occur at the start of `l`? (used to model JS substring
search). -/
def startsWith : Str → Str → Bool
  | [], _ => true
  | _ :: _, [] => false
  | a :: as, b :: bs => a == b && startsWith as bs

/-- Does `sfx` occur at the end of `l`? -/
def endsWith (sfx l : Str) : Bool := startsWith sfx.reverse l.reverse

/-- Does `needle` occur contiguously anywhere inside `hay`? This models
JS String.prototype.includes. -/
def containsSub (needle : Str) : Str → Bool
  | [] => needle.isEmpty
  | c :: t => startsWith needle (c :: t) || containsSub needle t

/-- JS String.prototype.toLowerCase restricted to ASCII letters, the
only letters that occur in alias names (which are \w matches). -/
def jsToLower (c : Char) : Char :=
  if 'A' ≤ c ∧ c ≤ 'Z' then Char.ofNat (c.toNat + 32) else c

/-- JS String.prototype.toUpperCase restricted to ASCII letters. -/
def jsToUpper (c : Char) : Char :=
  if 'a' ≤ c ∧ c ≤ 'z' then Char.ofNat (c.toNat - 32) else c

/-- One raw pattern match: the captured alias name (group 1) and the
captured definition text (group 2). -/
structure RawMatch where
  typeName : Str
  defText : Str
deriving DecidableEq

/-- One extracted record, mirroring the ModelType interface of
extract-model-types.ts: alias name, extracted literal models, and the
assigned category. -/
structure ModelType where
  typeName : Str
  models : List Str
  category : Str
deriving DecidableEq

/-- One entry of the emitted flat ALL_MODELS list. -/
structure FlatEntry where
  provider : Str
  model : Str
  category : Str
  value : Str
deriving DecidableEq

/-- The providerModels mapping built by main(): an insertion-ordered
association list from provider identifier to its extracted records. -/
abbrev ProviderModels := List (Str × List ModelType)

/-- The nested AI_SDK_MODELS registry: provider, then category, then
unique type name, then the model list. -/
abbrev NestedReg := List (Str × List (Str × List (Str × List Str)))

/--
Attempt to match one regex of the family
type\s+(\w*SFX)\s*=\s*([^;]+);  at the very start of `s`.

Returns (group 1, group 2, text after the whole match) on success.
The greedy JS semantics collapse deterministically here because \s, \w,
the literal = and the class [^;] interact as follows: the \w* in group 1
must swallow the whole maximal word run (any shorter stop is followed by
a word character, which neither \s nor = accepts), so group 1 is the
maximal \w run and must end in the suffix; [^;]+ cannot cross a
semicolon, so the match ends at the first ; after the =, and the \s*
before group 2 takes min(whitespace run, distance to ; minus 1)
characters so that group 2 keeps at least one character.
-/
def matchTypeAt (sfx : Str) (s : Str) : Option (Str × Str × Str) :=
  if s.take 4 ≠ "type".toList then none
  else
    let s1 := s.drop 4
    let ws := s1.takeWhile isSpaceChar
    if ws.length = 0 then none
    else
      let s2 := s1.drop ws.length
      let word := s2.takeWhile isWordChar
      if endsWith sfx word = false then none
      else
        match (s2.drop word.length).dropWhile isSpaceChar with
        | [] => none
        | c :: s5 =>
          if c ≠ '=' then none
          else
            let pre := s5.takeWhile (fun d => ¬ d = ';')
            if pre.length = 0 then none
            else
              match s5.drop pre.length with
              | ';' :: rest =>
                let sp := (s5.takeWhile isSpaceChar).length
                some (word, pre.drop (min sp (pre.length - 1)), rest)
              | _ => none

/--
Run one pattern over the whole content, left to right, with the JS
g-flag semantics: search for the leftmost match from the current
position; after a match, continue right after it; after a failed start
position, advance one character.  `skip` counts characters still to be
stepped over from a previous match (the match body minus the characters
already consumed).
-/
def scanAux (sfx : Str) : Nat → Str → List RawMatch
  | _, [] => []
  | Nat.succ k, _ :: t => scanAux sfx k t
  | 0, s@(_ :: t) =>
    match matchTypeAt sfx s with
    | some (n, d, rest) => ⟨n, d⟩ :: scanAux sfx (s.length - rest.length - 1) t
    | none => scanAux sfx 0 t

/-- All matches of one pattern over the content, in order. -/
def scanMatches (sfx content : Str) : List RawMatch := scanAux sfx 0 content

/-- The six naming-convention suffixes, in the order the typeRegexes
array lists them. -/
def typeSuffixes : List Str :=
  ["ModelId".toList, "Model".toList, "Models".toList,
   "ChatModel".toList, "EmbeddingModel".toList, "ImageModel".toList]

/-- All raw matches across all six patterns, in processing order
(pattern by pattern, and within one pattern left to right). -/
def allRawMatches (content : Str) : List RawMatch :=
  typeSuffixes.flatMap (fun sfx => scanMatches sfx content)

/--
The single-quoted literal extractor, modelling
definition.match(/([^...]+)/g with single-quote delimiters) followed by
stripping the quotes from each match.  Operationally: outside quotes
(`st = none`) every non-quote character is skipped and a quote opens a
candidate; inside a candidate (`st = some buf`, reversed buffer) a
non-quote character extends it and a quote either emits the buffer (if
nonempty) or, for an empty buffer (adjacent quotes), re-opens at the
second quote exactly as the regex engine retries the next start
position.
-/
def scanLit : Str → Option Str → List Str
  | [], _ => []
  | c :: rest, none =>
    if c = squote then scanLit rest (some []) else scanLit rest none
  | c :: rest, some buf =>
    if c = squote then
      if buf.isEmpty then scanLit rest (some [])
      else buf.reverse :: scanLit rest none
    else scanLit rest (some (c :: buf))

/-- Extract the ordered single-quoted literals of a definition text. -/
def extractLiterals (s : Str) : List Str := scanLit s none

/-- The hard-coded excluded alias name. -/
def oaiExcluded : Str := "OpenAIResponsesModelId".toList

/--
The category classifier of extract-model-types.ts lines 56-70:
case-insensitive substring tests against the lowered alias name, in the
fixed order embedding, image, completion, transcription, speech,
responses, defaulting to chat.
-/
def categoryOf (typeName : Str) : Str :=
  if containsSub "embedding".toList (typeName.map jsToLower) then
    "embedding".toList
  else if containsSub "image".toList (typeName.map jsToLower) then
    "image".toList
  else if containsSub "completion".toList (typeName.map jsToLower) then
    "completion".toList
  else if containsSub "transcription".toList (typeName.map jsToLower) then
    "transcription".toList
  else if containsSub "speech".toList (typeName.map jsToLower) then
    "speech".toList
  else if containsSub "responses".toList (typeName.map jsToLower) then
    "responses".toList
  else "chat".toList

/--
The record a raw match contributes before deduplication: lines 43-71 of
extract-model-types.ts.  Empty captures are skipped, the excluded alias
name is skipped, a definition with no extractable literal is skipped;
otherwise the record carries the literals and the classified category.
-/
def candidateOf (m : RawMatch) : Option ModelType :=
  if m.typeName.isEmpty then none
  else if m.defText.isEmpty then none
  else if m.typeName = oaiExcluded then none
  else if (extractLiterals m.defText).isEmpty then none
  else some ⟨m.typeName, extractLiterals m.defText, categoryOf m.typeName⟩

/-- Append a record unless one with the same key is already present:
the modelTypes.find duplicate check of lines 72-80. -/
def insertIfNewBy {α : Type} (key : α → Str) (acc : List α) (r : α) :
    List α :=
  if acc.any (fun t => key t == key r) then acc else acc ++ [r]

/-- One step of the extraction loop body applied to an accumulator. -/
def processMatch (acc : List ModelType) (m : RawMatch) : List ModelType :=
  match candidateOf m with
  | none => acc
  | some r => insertIfNewBy ModelType.typeName acc r

/-- extractModelTypes of extract-model-types.ts: all six patterns are
run over the content and each match is processed in order, with
first-occurrence-wins deduplication by alias name. -/
def extractModelTypes (content : Str) : List ModelType :=
  (allRawMatches content).foldl processMatch []

/-- The pre-deduplication candidate stream: every record any pattern
match would contribute, in processing order. -/
def candidateRecords (content : Str) : List ModelType :=
  (allRawMatches content).filterMap candidateOf

/-- First-occurrence-wins deduplication by alias name, over an
arbitrary record stream. -/
def firstWins (l : List ModelType) : List ModelType :=
  l.foldl (insertIfNewBy ModelType.typeName) []

/-- Splitting on the separator class [-@/] used by
createProviderPrefix. -/
def isSepChar (c : Char) : Bool := c == '-' || c == '@' || c == '/'

/-- JS String.prototype.split on the class [-@/]: empty segments are
kept, exactly as JS keeps them. -/
def splitSeps : Str → Str → List Str
  | acc, [] => [acc.reverse]
  | acc, c :: t =>
    if isSepChar c then acc.reverse :: splitSeps [] t
    else splitSeps (c :: acc) t

/-- charAt(0).toUpperCase() + slice(1), which leaves an empty segment
empty. -/
def capitalizeSegment : Str → Str
  | [] => []
  | c :: t => jsToUpper c :: t

/-- createProviderPrefix of generateModelTypesFile: split the provider
identifier on -, @, /, capitalize each segment's first character, and
concatenate. -/
def createProviderPrefix (provider : Str) : Str :=
  ((splitSeps [] provider).map capitalizeSegment).flatten

/-- The provider-disambiguated type name providerPrefix + aliasName. -/
def uniqueTypeName (provider typeName : Str) : Str :=
  createProviderPrefix provider ++ typeName

/-- The flat ALL_MODELS list emitted at lines 155-161: providers in
collection order, records in capture order, models in extraction order,
each with value provider:model. -/
def generateFlatList (pm : ProviderModels) : List FlatEntry :=
  pm.flatMap (fun pe =>
    pe.2.flatMap (fun mt =>
      mt.models.map (fun m =>
        { provider := pe.1, model := m, category := mt.category,
          value := pe.1 ++ ":".toList ++ m })))

/-- First-seen-order deduplication of a list of strings, modelling
[...new Set(xs)]. -/
def dedupFirst (l : List Str) : List Str :=
  l.foldl (insertIfNewBy id) []

/-- The per-provider body of the nested AI_SDK_MODELS registry
(lines 124-146): categories in first-seen order, each holding the
records of that category keyed by unique type name; an empty category
group is omitted. -/
def nestedCats (provider : Str) (mts : List ModelType) :
    List (Str × List (Str × List Str)) :=
  (dedupFirst (mts.map (fun t => t.category))).filterMap (fun cat =>
    if (mts.filter (fun t => t.category == cat)).isEmpty then none
    else some (cat, (mts.filter (fun t => t.category == cat)).map (fun mt =>
      (uniqueTypeName provider mt.typeName, mt.models))))

/-- The nested AI_SDK_MODELS registry. -/
def generateNested (pm : ProviderModels) : NestedReg :=
  pm.map (fun pe => (pe.1, nestedCats pe.1 pe.2))

/-- Total number of models stored in a nested registry. -/
def nestedModelCount (reg : NestedReg) : Nat :=
  (reg.map (fun pe =>
    (pe.2.map (fun ce => (ce.2.map (fun te => te.2.length)).sum)).sum)).sum

/-- All category keys occurring anywhere in a nested registry. -/
def nestedCategories (reg : NestedReg) : List Str :=
  reg.flatMap (fun pe => pe.2.map (fun ce => ce.1))

/-- JS strict equality between a string field and a possibly-null /
undefined argument: a string is never strictly equal to null or
undefined. -/
def jsStrictEqStr (s : Str) (arg : Option Str) : Bool :=
  match arg with
  | some t => s == t
  | none => false

/-- The emitted helper getModelsByProvider:
ALL_MODELS.filter(m with m.provider strictly equal to the argument). -/
def getModelsByProvider (flat : List FlatEntry) (arg : Option Str) :
    List FlatEntry :=
  flat.filter (fun m => jsStrictEqStr m.provider arg)

/-- The emitted helper getModelsByCategory. -/
def getModelsByCategory (flat : List FlatEntry) (arg : Option Str) :
    List FlatEntry :=
  flat.filter (fun m => jsStrictEqStr m.category arg)

/-- The providerModels collection built by main() from per-provider
declaration texts: a provider is only added when extraction found at
least one record. -/
def buildProviderModels (inputs : List (Str × Str)) : ProviderModels :=
  inputs.filterMap (fun pe =>
    if (extractModelTypes pe.2).isEmpty then none
    else some (pe.1, extractModelTypes pe.2))

/-- A definition text rendered as a union: a leading fragment, then a
sequence of single-quoted literals each followed by a separator
fragment. -/
def renderUnion (lead : Str) (parts : List (Str × Str)) : Str :=
  lead ++ parts.flatMap (fun pr => squote :: pr.1 ++ squote :: pr.2)

/-- The canonical flat ordering stated by the specification (section
4.4): providers in discovery order, within each provider its
deduplicated records in capture order, within each record its literal
models in extraction order, with the wire shape value
provider:model.  Written independently of generateFlatList, for the
refinement comparison of the determinism claim. -/
def specCanonicalFlat (pm : ProviderModels) : List FlatEntry :=
  (pm.map (fun pe =>
    (pe.2.map (fun mt =>
      mt.models.map (fun m =>
        ({ provider := pe.1, model := m, category := mt.category,
           value := pe.1 ++ ":".toList ++ m } : FlatEntry)))).flatten)).flatten

/-- Concrete fixture: the end-to-end scenario declaration text for
provider foo-bar, a chat alias with two quoted literals and the open
string-intersection branch. -/
def content9 : Str :=
  "type FooChatModelId = ".toList ++ quoted "a-1" ++ " | ".toList ++
    quoted "a-2" ++ " | (string & \x7b\x7d);".toList

/-- Concrete fixture: two type-alias declarations with the same alias
name and different literal sets. -/
def contentDup : Str :=
  "type AModelId = ".toList ++ quoted "x" ++ "; type AModelId = ".toList ++
    quoted "y" ++ ";".toList

/-- Concrete fixture: one ordinary declaration. -/
def contentBar : Str :=
  "type BarModelId = ".toList ++ quoted "m" ++ ";".toList

/-- Degenerate provider collection: one provider with no records. -/
def pmDegenerate : ProviderModels := [("p".toList, [])]

/-- The provider collection of the end-to-end scenario. -/
def pm9 : ProviderModels := [("foo-bar".toList, extractModelTypes content9)]

/-- A one-entry flat list used to exercise the query helpers. -/
def flatW : List FlatEntry :=
  [⟨"openai".toList, "gpt-4o".toList, "chat".toList,
    "openai:gpt-4o".toList⟩]

/-! ## Helper lemmas: first-occurrence-wins insertion -/

theorem insertIfNewBy_cond {α : Type} (key : α → Str) (acc : List α) (r : α) :
    (acc.any (fun t => key t == key r) = true) ↔ key r ∈ acc.map key := by
  simp only [List.any_eq_true, beq_iff_eq, List.mem_map]

theorem insertIfNewBy_pos {α : Type} (key : α → Str) (acc : List α) (r : α)
    (h : key r ∈ acc.map key) : insertIfNewBy key acc r = acc := by
  unfold insertIfNewBy
  rw [if_pos ((insertIfNewBy_cond key acc r).mpr h)]

theorem insertIfNewBy_neg {α : Type} (key : α → Str) (acc : List α) (r : α)
    (h : key r ∉ acc.map key) : insertIfNewBy key acc r = acc ++ [r] := by
  unfold insertIfNewBy
  rw [if_neg (fun hc => h ((insertIfNewBy_cond key acc r).mp hc))]

theorem foldl_insert_mem_key {α : Type} (key : α → Str) (l acc : List α)
    (n : Str) :
    n ∈ (l.foldl (insertIfNewBy key) acc).map key ↔
      n ∈ acc.map key ∨ n ∈ l.map key := by
  induction l generalizing acc with
  | nil => simp
  | cons x t ih =>
    rw [List.foldl_cons, ih]
    by_cases h : key x ∈ acc.map key
    · rw [insertIfNewBy_pos key acc x h]
      simp only [List.map_cons, List.mem_cons]
      constructor
      · rintro (h1 | h2)
        · exact Or.inl h1
        · exact Or.inr (Or.inr h2)
      · rintro (h1 | h2 | h3)
        · exact Or.inl h1
        · exact Or.inl (h2 ▸ h)
        · exact Or.inr h3
    · rw [insertIfNewBy_neg key acc x h]
      simp only [List.map_append, List.mem_append, List.map_cons,
        List.map_nil, List.mem_singleton, List.mem_cons]
      tauto

theorem foldl_insert_nodup {α : Type} (key : α → Str) (l acc : List α)
    (h : (acc.map key).Nodup) :
    ((l.foldl (insertIfNewBy key) acc).map key).Nodup := by
  induction l generalizing acc with
  | nil => exact h
  | cons x t ih =>
    rw [List.foldl_cons]
    by_cases hx : key x ∈ acc.map key
    · rw [insertIfNewBy_pos key acc x hx]; exact ih acc h
    · rw [insertIfNewBy_neg key acc x hx]
      refine ih (acc ++ [x]) ?_
      rw [List.map_append]
      rw [List.nodup_append]
      refine ⟨h, List.nodup_singleton _, ?_⟩
      intro a ha hb
      simp only [List.map_cons, List.map_nil, List.mem_singleton] at hb
      exact hx (hb ▸ ha)

theorem foldl_insert_first {α : Type} (key : α → Str) (l acc : List α) :
    ∀ r ∈ l.foldl (insertIfNewBy key) acc,
      r ∈ acc ∨
        (key r ∉ acc.map key ∧
          ∃ l₁ l₂, l = l₁ ++ r :: l₂ ∧ ∀ r' ∈ l₁, key r' ≠ key r) := by
  induction l generalizing acc with
  | nil => intro r hr; exact Or.inl hr
  | cons x t ih =>
    intro r hr
    rw [List.foldl_cons] at hr
    by_cases hx : key x ∈ acc.map key
    · rw [insertIfNewBy_pos key acc x hx] at hr
      rcases ih acc r hr with h1 | ⟨hnot, l₁, l₂, hdec, hfresh⟩
      · exact Or.inl h1
      · refine Or.inr ⟨hnot, x :: l₁, l₂, by rw [hdec]; rfl, ?_⟩
        intro r' hr'
        rcases List.mem_cons.mp hr' with he | hm
        · subst he; intro hc; exact hnot (hc ▸ hx)
        · exact hfresh r' hm
    · rw [insertIfNewBy_neg key acc x hx] at hr
      rcases ih (acc ++ [x]) r hr with h1 | ⟨hnot, l₁, l₂, hdec, hfresh⟩
      · rcases List.mem_append.mp h1 with ha | hs
        · exact Or.inl ha
        · rcases List.mem_singleton.mp hs with he
          subst he
          exact Or.inr ⟨hx, [], t, rfl, by intro r' hr'; cases hr'⟩
      · have hnacc : key r ∉ acc.map key := by
          intro hc
          exact hnot (by rw [List.map_append]; exact List.mem_append.mpr (Or.inl hc))
        have hnx : key x ≠ key r := by
          intro hc
          refine hnot ?_
          rw [List.map_append]
          refine List.mem_append.mpr (Or.inr ?_)
          simp [hc]
        refine Or.inr ⟨hnacc, x :: l₁, l₂, by rw [hdec]; rfl, ?_⟩
        intro r' hr'
        rcases List.mem_cons.mp hr' with he | hm
        · subst he; exact hnx
        · exact hfresh r' hm

theorem foldl_insert_mem {α : Type} (key : α → Str) (l : List α) :
    ∀ r ∈ l.foldl (insertIfNewBy key) [], r ∈ l := by
  intro r hr
  rcases foldl_insert_first key l [] r hr with h1 | ⟨_, l₁, l₂, hdec, _⟩
  · cases h1
  · rw [hdec]
    exact List.mem_append.mpr (Or.inr (List.mem_cons_self _ _))

/-! ## Helper lemmas: the literal scanner -/

theorem scanLit_ne_nil (s : Str) (st : Option Str) :
    ∀ m ∈ scanLit s st, m ≠ [] := by
  induction s generalizing st with
  | nil => intro m hm; cases hm
  | cons c rest ih =>
    intro m hm
    match st with
    | none =>
      rw [scanLit] at hm
      split at hm
      · exact ih _ m hm
      · exact ih _ m hm
    | some buf =>
      rw [scanLit] at hm
      split at hm
      · split at hm
        · exact ih _ m hm
        · rcases List.mem_cons.mp hm with he | hmem
          · subst he
            next hq hne =>
              intro hc
              rw [List.reverse_eq_nil_iff] at hc
              rw [hc] at hne
              simp at hne
          · exact ih _ m hmem
      · exact ih _ m hm

theorem scanLit_skip (sep s : Str) (h : ∀ c ∈ sep, c ≠ squote) :
    scanLit (sep ++ s) none = scanLit s none := by
  induction sep with
  | nil => rfl
  | cons c t ih =>
    rw [List.cons_append, scanLit, if_neg (h c (List.mem_cons_self c t))]
    exact ih (fun d hd => h d (List.mem_cons_of_mem c hd))

theorem scanLit_inside (inner rest buf : Str)
    (h : ∀ c ∈ inner, c ≠ squote) :
    scanLit (inner ++ rest) (some buf) =
      scanLit rest (some (inner.reverse ++ buf)) := by
  induction inner generalizing buf with
  | nil => simp
  | cons c t ih =>
    rw [List.cons_append, scanLit, if_neg (h c (List.mem_cons_self c t)),
      ih (c :: buf) (fun d hd => h d (List.mem_cons_of_mem c hd))]
    simp [List.append_assoc]

theorem scanLit_quoted (inner s : Str) (hne : inner ≠ [])
    (h : ∀ c ∈ inner, c ≠ squote) :
    scanLit ((squote :: inner) ++ squote :: s) none =
      inner :: scanLit s none := by
  rw [List.cons_append, scanLit, if_pos rfl,
    scanLit_inside inner (squote :: s) [] h]
  rw [scanLit, if_pos rfl]
  have hb : (inner.reverse ++ []).isEmpty = false := by
    rw [List.isEmpty_eq_false]
    simp [List.reverse_eq_nil_iff, hne]
  rw [if_neg (by rw [hb]; simp)]
  simp

/-! ## Helper lemmas: extraction as first-wins over the candidate stream -/

theorem foldl_processMatch_eq (raws : List RawMatch) (acc : List ModelType) :
    raws.foldl processMatch acc =
      (raws.filterMap candidateOf).foldl
        (insertIfNewBy ModelType.typeName) acc := by
  induction raws generalizing acc with
  | nil => rfl
  | cons m t ih =>
    rw [List.foldl_cons, List.filterMap_cons]
    cases h : candidateOf m with
    | none => simp only [processMatch, h]; exact ih acc
    | some r =>
      simp only [processMatch, h, List.foldl_cons]
      exact ih (insertIfNewBy ModelType.typeName acc r)

theorem extractModelTypes_eq_firstWins (content : Str) :
    extractModelTypes content = firstWins (candidateRecords content) := by
  unfold extractModelTypes firstWins candidateRecords
  exact foldl_processMatch_eq _ []

theorem candidateOf_shape (m : RawMatch) (r : ModelType)
    (h : candidateOf m = some r) :
    r.typeName = m.typeName ∧ r.models = extractLiterals m.defText ∧
      r.category = categoryOf m.typeName ∧ m.typeName ≠ oaiExcluded ∧
      r.models ≠ [] := by
  unfold candidateOf at h
  by_cases h1 : m.typeName.isEmpty = true
  · rw [if_pos h1] at h; cases h
  rw [if_neg h1] at h
  by_cases h2 : m.defText.isEmpty = true
  · rw [if_pos h2] at h; cases h
  rw [if_neg h2] at h
  by_cases h3 : m.typeName = oaiExcluded
  · rw [if_pos h3] at h; cases h
  rw [if_neg h3] at h
  by_cases h4 : (extractLiterals m.defText).isEmpty = true
  · rw [if_pos h4] at h; cases h
  rw [if_neg h4] at h
  injection h with h
  subst h
  refine ⟨rfl, rfl, rfl, h3, ?_⟩
  intro hc
  simp only [] at hc
  exact h4 (by simp [hc])

/-! ## Helper lemmas: sums over category groups -/

theorem sum_map_filter_not {α : Type} (p : α → Bool) (f : α → Nat)
    (l : List α) :
    ((l.filter p).map f).sum + ((l.filter (fun a => ! p a)).map f).sum
      = (l.map f).sum := by
  induction l with
  | nil => rfl
  | cons a t ih =>
    cases h : p a <;> simp [List.filter_cons, h] <;> omega

theorem sum_over_groups {α : Type} (key : α → Str) (f : α → Nat)
    (ks : List Str) :
    ∀ l : List α, ks.Nodup → (∀ x ∈ l, key x ∈ ks) →
      (ks.map (fun k =>
        ((l.filter (fun t => key t == k)).map f).sum)).sum
        = (l.map f).sum := by
  induction ks with
  | nil =>
    intro l _ hcov
    cases l with
    | nil => rfl
    | cons x t =>
      exact absurd (hcov x (List.mem_cons_self x t)) (List.not_mem_nil _)
  | cons k ks ih =>
    intro l hnd hcov
    have hk : k ∉ ks := (List.nodup_cons.mp hnd).1
    have hnd' : ks.Nodup := (List.nodup_cons.mp hnd).2
    rw [List.map_cons, List.sum_cons]
    have hgroups :
        (ks.map (fun k' =>
          ((l.filter (fun t => key t == k')).map f).sum)).sum
        = (ks.map (fun k' =>
            (((l.filter (fun t => ! (key t == k))).filter
              (fun t => key t == k')).map f).sum)).sum := by
      apply congrArg List.sum
      apply List.map_congr_left
      intro k' hk'
      have hne : k' ≠ k := fun hc => hk (hc ▸ hk')
      rw [List.filter_filter]
      refine congrArg (fun l0 => (List.map f l0).sum) ?_
      apply List.filter_congr
      intro x _
      by_cases he : key x = k'
      · simp [he, hne]
      · simp [he]
    rw [hgroups]
    rw [ih (l.filter (fun t => ! (key t == k))) hnd' ?_]
    · exact sum_map_filter_not (fun t => key t == k) f l
    · intro x hx
      rcases List.mem_filter.mp hx with ⟨hxl, hxk⟩
      have : key x ≠ k := by
        intro hc
        rw [hc] at hxk
        simp at hxk
      rcases List.mem_cons.mp (hcov x hxl) with h1 | h2
      · exact absurd h1 this
      · exact h2

/-! ## Helper lemmas: dedupFirst -/

theorem dedupFirst_mem (l : List Str) (n : Str) :
    n ∈ dedupFirst l ↔ n ∈ l := by
  have h := foldl_insert_mem_key id l [] n
  unfold dedupFirst
  simpa using h

theorem dedupFirst_nodup (l : List Str) : (dedupFirst l).Nodup := by
  have h := foldl_insert_nodup id l [] (by simp)
  unfold dedupFirst
  simpa using h

/-! ## Helper lemmas: flat/nested consistency -/

theorem nestedCats_sum (prov : Str) (mts : List ModelType) :
    ((nestedCats prov mts).map
      (fun ce => (ce.2.map (fun te => te.2.length)).sum)).sum
      = (mts.map (fun mt => mt.models.length)).sum := by
  unfold nestedCats
  have hstep : ∀ cats : List Str,
      ((cats.filterMap (fun cat =>
        if (mts.filter (fun t => t.category == cat)).isEmpty then none
        else some (cat,
          (mts.filter (fun t => t.category == cat)).map (fun mt =>
            (uniqueTypeName prov mt.typeName, mt.models))))).map
        (fun ce => (ce.2.map (fun te => te.2.length)).sum)).sum
      = (cats.map (fun cat =>
          ((mts.filter (fun t => t.category == cat)).map
            (fun mt => mt.models.length)).sum)).sum := by
    intro cats
    induction cats with
    | nil => rfl
    | cons cat cs ih =>
      rw [List.filterMap_cons, List.map_cons, List.sum_cons]
      by_cases h : (mts.filter (fun t => t.category == cat)).isEmpty = true
      · rw [if_pos h]
        rw [List.isEmpty_iff] at h
        rw [h]
        simpa using ih
      · rw [if_neg h, List.map_cons, List.sum_cons, ih]
        congr 1
        rw [List.map_map]
        rfl
  rw [hstep]
  exact sum_over_groups (fun t => t.category) (fun mt => mt.models.length)
    (dedupFirst (mts.map (fun t => t.category))) mts
    (dedupFirst_nodup _)
    (fun mt hmt => (dedupFirst_mem _ _).mpr
      (List.mem_map.mpr ⟨mt, hmt, rfl⟩))

theorem generateFlatList_length (pm : ProviderModels) :
    (generateFlatList pm).length = nestedModelCount (generateNested pm) := by
  unfold generateFlatList nestedModelCount generateNested
  rw [List.length_flatMap, List.map_map]
  apply congrArg List.sum
  apply List.map_congr_left
  intro pe _
  simp only [Function.comp]
  rw [List.length_flatMap]
  rw [nestedCats_sum pe.1 pe.2]
  apply congrArg List.sum
  apply List.map_congr_left
  intro mt _
  simp

theorem generateNested_keys (pm : ProviderModels) :
    (generateNested pm).map (fun pe => pe.1) = pm.map (fun pe => pe.1) := by
  unfold generateNested
  rw [List.map_map]
  rfl

theorem exists_mem_iff_ne_nil {α : Type} (l : List α) :
    (∃ x, x ∈ l) ↔ l ≠ [] := by
  constructor
  · rintro ⟨x, hx⟩; exact List.ne_nil_of_mem hx
  · intro h; exact List.exists_mem_of_ne_nil l h

theorem mem_flatProviders (pm : ProviderModels) (p : Str) :
    p ∈ (generateFlatList pm).map (fun e => e.provider) ↔
      ∃ pe ∈ pm, pe.1 = p ∧ ∃ mt ∈ pe.2, mt.models ≠ [] := by
  unfold generateFlatList
  simp only [List.mem_map, List.mem_flatMap]
  constructor
  · rintro ⟨e, ⟨pe, hpe, mt, hmt, m, hmm, he⟩, hep⟩
    subst he
    exact ⟨pe, hpe, hep, mt, hmt, List.ne_nil_of_mem hmm⟩
  · rintro ⟨pe, hpe, hp1, mt, hmt, hmn⟩
    rcases List.exists_mem_of_ne_nil _ hmn with ⟨m, hm⟩
    exact ⟨{ provider := pe.1, model := m, category := mt.category,
             value := pe.1 ++ ":".toList ++ m },
      ⟨pe, hpe, mt, hmt, m, hm, rfl⟩, hp1⟩

theorem mem_flatCategories (pm : ProviderModels) (c : Str) :
    c ∈ (generateFlatList pm).map (fun e => e.category) ↔
      ∃ pe ∈ pm, ∃ mt ∈ pe.2, mt.category = c ∧ mt.models ≠ [] := by
  unfold generateFlatList
  simp only [List.mem_map, List.mem_flatMap]
  constructor
  · rintro ⟨e, ⟨pe, hpe, mt, hmt, m, hmm, he⟩, hec⟩
    subst he
    exact ⟨pe, hpe, mt, hmt, hec, List.ne_nil_of_mem hmm⟩
  · rintro ⟨pe, hpe, mt, hmt, hc, hmn⟩
    rcases List.exists_mem_of_ne_nil _ hmn with ⟨m, hm⟩
    exact ⟨{ provider := pe.1, model := m, category := mt.category,
             value := pe.1 ++ ":".toList ++ m },
      ⟨pe, hpe, mt, hmt, m, hm, rfl⟩, hc⟩

theorem mem_nestedCats_keys (prov : Str) (mts : List ModelType) (c : Str) :
    c ∈ (nestedCats prov mts).map (fun ce => ce.1) ↔
      ∃ mt ∈ mts, mt.category = c := by
  unfold nestedCats
  simp only [List.mem_map, List.mem_filterMap]
  constructor
  · rintro ⟨ce, ⟨cat, hcat, hg⟩, hc1⟩
    by_cases h : (mts.filter (fun t => t.category == cat)).isEmpty = true
    · rw [if_pos h] at hg; cases hg
    · rw [if_neg h] at hg
      injection hg with hg
      subst hg
      simp only [] at hc1
      subst hc1
      have hmem : cat ∈ mts.map (fun t => t.category) :=
        (dedupFirst_mem _ _).mp hcat
      rcases List.mem_map.mp hmem with ⟨mt, hmt, hcm⟩
      exact ⟨mt, hmt, hcm⟩
  · rintro ⟨mt, hmt, hcm⟩
    refine ⟨(c, (mts.filter (fun t => t.category == c)).map (fun mt =>
      (uniqueTypeName prov mt.typeName, mt.models))), ⟨c, ?_, ?_⟩, rfl⟩
    · exact (dedupFirst_mem _ _).mpr (List.mem_map.mpr ⟨mt, hmt, hcm⟩)
    · rw [if_neg]
      intro hc
      rw [List.isEmpty_iff] at hc
      have hin : mt ∈ mts.filter (fun t => t.category == c) :=
        List.mem_filter.mpr ⟨hmt, by simp [beq_iff_eq, hcm]⟩
      rw [hc] at hin
      cases hin

theorem mem_nestedCategories_iff (pm : ProviderModels) (c : Str) :
    c ∈ nestedCategories (generateNested pm) ↔
      ∃ pe ∈ pm, ∃ mt ∈ pe.2, mt.category = c := by
  unfold nestedCategories generateNested
  simp only [List.mem_flatMap, List.mem_map]
  constructor
  · rintro ⟨x, ⟨pe, hpe, hx⟩, ce, hce, hc1⟩
    subst hx
    rcases (mem_nestedCats_keys pe.1 pe.2 c).mp
      (List.mem_map.mpr ⟨ce, hce, hc1⟩) with ⟨mt, hmt, hcm⟩
    exact ⟨pe, hpe, mt, hmt, hcm⟩
  · rintro ⟨pe, hpe, mt, hmt, hcm⟩
    rcases List.mem_map.mp
      ((mem_nestedCats_keys pe.1 pe.2 c).mpr ⟨mt, hmt, hcm⟩) with ⟨ce, hce, hc1⟩
    exact ⟨(pe.1, nestedCats pe.1 pe.2), ⟨pe, hpe, rfl⟩, ce, hce, hc1⟩

/-! ## Helper lemma: every extracted record has nonempty models -/

theorem extract_models_ne_nil (content : Str) :
    ∀ r ∈ extractModelTypes content, ∀ m ∈ r.models, m ≠ [] := by
  intro r hr m hm
  rw [extractModelTypes_eq_firstWins] at hr
  unfold firstWins at hr
  have hmem := foldl_insert_mem ModelType.typeName _ r hr
  rcases List.mem_filterMap.mp hmem with ⟨mm, _, hmm⟩
  rcases candidateOf_shape mm r hmm with ⟨_, h2, _, _, _⟩
  rw [h2] at hm
  exact scanLit_ne_nil _ none m hm

/-! ## Claim theorems -/

/-- C1: for every provider declaration text, the extraction output
contains each alias name at most once; each retained record is the
first record of its alias name in the pre-dedup candidate stream (so
for duplicate alias declarations the literal set of the first
occurrence is kept, and later matches — from the same or a different
pattern — are dropped), and no alias name found by any pattern is lost
entirely. -/
theorem extract_dedup_firstOccurrenceWins (content : Str) :
    ((extractModelTypes content).map ModelType.typeName).Nodup
    ∧ (∀ r ∈ extractModelTypes content,
        ∃ l₁ l₂, candidateRecords content = l₁ ++ r :: l₂ ∧
          ∀ r' ∈ l₁, r'.typeName ≠ r.typeName)
    ∧ (∀ cr ∈ candidateRecords content,
        ∃ r ∈ extractModelTypes content, r.typeName = cr.typeName) := by
  refine ⟨?_, ?_, ?_⟩
  · rw [extractModelTypes_eq_firstWins]
    unfold firstWins
    exact foldl_insert_nodup ModelType.typeName _ [] (by simp)
  · intro r hr
    rw [extractModelTypes_eq_firstWins] at hr
    unfold firstWins at hr
    rcases foldl_insert_first ModelType.typeName
        (candidateRecords content) [] r hr with
      h1 | ⟨_, l₁, l₂, hdec, hfresh⟩
    · cases h1
    · exact ⟨l₁, l₂, hdec, hfresh⟩
  · intro cr hcr
    rw [extractModelTypes_eq_firstWins]
    unfold firstWins
    have h2 : cr.typeName ∈ (candidateRecords content).map ModelType.typeName :=
      List.mem_map.mpr ⟨cr, hcr, rfl⟩
    have h3 := (foldl_insert_mem_key ModelType.typeName
      (candidateRecords content) [] cr.typeName).mpr (Or.inr h2)
    rcases List.mem_map.mp h3 with ⟨r, hr, he⟩
    exact ⟨r, hr, he⟩

/-- C1 witness: on a text declaring AModelId twice (literals x then y),
the deduplicated output is nodup and the retained record (with literal
x only) is the first candidate of that name. -/
theorem extract_dedup_firstOccurrenceWins_witness :
    ((extractModelTypes contentDup).map ModelType.typeName).Nodup
    ∧ ∃ l₁ l₂, candidateRecords contentDup = l₁ ++
        (⟨"AModelId".toList, ["x".toList], "chat".toList⟩ : ModelType) :: l₂ ∧
        ∀ r' ∈ l₁, r'.typeName ≠
          (⟨"AModelId".toList, ["x".toList], "chat".toList⟩ : ModelType).typeName :=
  ⟨(extract_dedup_firstOccurrenceWins contentDup).1,
   (extract_dedup_firstOccurrenceWins contentDup).2.1
     ⟨"AModelId".toList, ["x".toList], "chat".toList⟩ (by decide)⟩

/-- C2: the category classifier is total — every alias name gets
exactly one of the seven categories, by case-insensitive substring
tests in the fixed priority order embedding, image, completion,
transcription, speech, responses, with chat as the default; in
particular ImageEmbeddingModel classifies as embedding. -/
theorem categoryOf_total_priority (name : Str) :
    categoryOf name ∈ ["chat".toList, "embedding".toList, "image".toList,
      "completion".toList, "transcription".toList, "speech".toList,
      "responses".toList]
    ∧ (containsSub "embedding".toList (name.map jsToLower) = true →
        categoryOf name = "embedding".toList)
    ∧ (containsSub "embedding".toList (name.map jsToLower) = false →
       containsSub "image".toList (name.map jsToLower) = true →
        categoryOf name = "image".toList)
    ∧ (containsSub "embedding".toList (name.map jsToLower) = false →
       containsSub "image".toList (name.map jsToLower) = false →
       containsSub "completion".toList (name.map jsToLower) = true →
        categoryOf name = "completion".toList)
    ∧ (containsSub "embedding".toList (name.map jsToLower) = false →
       containsSub "image".toList (name.map jsToLower) = false →
       containsSub "completion".toList (name.map jsToLower) = false →
       containsSub "transcription".toList (name.map jsToLower) = true →
        categoryOf name = "transcription".toList)
    ∧ (containsSub "embedding".toList (name.map jsToLower) = false →
       containsSub "image".toList (name.map jsToLower) = false →
       containsSub "completion".toList (name.map jsToLower) = false →
       containsSub "transcription".toList (name.map jsToLower) = false →
       containsSub "speech".toList (name.map jsToLower) = true →
        categoryOf name = "speech".toList)
    ∧ (containsSub "embedding".toList (name.map jsToLower) = false →
       containsSub "image".toList (name.map jsToLower) = false →
       containsSub "completion".toList (name.map jsToLower) = false →
       containsSub "transcription".toList (name.map jsToLower) = false →
       containsSub "speech".toList (name.map jsToLower) = false →
       containsSub "responses".toList (name.map jsToLower) = true →
        categoryOf name = "responses".toList)
    ∧ (containsSub "embedding".toList (name.map jsToLower) = false →
       containsSub "image".toList (name.map jsToLower) = false →
       containsSub "completion".toList (name.map jsToLower) = false →
       containsSub "transcription".toList (name.map jsToLower) = false →
       containsSub "speech".toList (name.map jsToLower) = false →
       containsSub "responses".toList (name.map jsToLower) = false →
        categoryOf name = "chat".toList)
    ∧ categoryOf "ImageEmbeddingModel".toList = "embedding".toList := by
  refine ⟨?_, ?_, ?_, ?_, ?_, ?_, ?_, ?_, by decide⟩
  · unfold categoryOf
    split_ifs <;> simp
  · intro h1
    unfold categoryOf
    rw [if_pos h1]
  · intro h1 h2
    unfold categoryOf
    rw [if_neg (fun hc => Bool.false_ne_true (h1 ▸ hc)), if_pos h2]
  · intro h1 h2 h3
    unfold categoryOf
    rw [if_neg (fun hc => Bool.false_ne_true (h1 ▸ hc)), if_neg (fun hc => Bool.false_ne_true (h2 ▸ hc)), if_pos h3]
  · intro h1 h2 h3 h4
    unfold categoryOf
    rw [if_neg (fun hc => Bool.false_ne_true (h1 ▸ hc)), if_neg (fun hc => Bool.false_ne_true (h2 ▸ hc)),
      if_neg (fun hc => Bool.false_ne_true (h3 ▸ hc)), if_pos h4]
  · intro h1 h2 h3 h4 h5
    unfold categoryOf
    rw [if_neg (fun hc => Bool.false_ne_true (h1 ▸ hc)), if_neg (fun hc => Bool.false_ne_true (h2 ▸ hc)),
      if_neg (fun hc => Bool.false_ne_true (h3 ▸ hc)), if_neg (fun hc => Bool.false_ne_true (h4 ▸ hc)), if_pos h5]
  · intro h1 h2 h3 h4 h5 h6
    unfold categoryOf
    rw [if_neg (fun hc => Bool.false_ne_true (h1 ▸ hc)), if_neg (fun hc => Bool.false_ne_true (h2 ▸ hc)),
      if_neg (fun hc => Bool.false_ne_true (h3 ▸ hc)), if_neg (fun hc => Bool.false_ne_true (h4 ▸ hc)),
      if_neg (fun hc => Bool.false_ne_true (h5 ▸ hc)), if_pos h6]
  · intro h1 h2 h3 h4 h5 h6
    unfold categoryOf
    rw [if_neg (fun hc => Bool.false_ne_true (h1 ▸ hc)), if_neg (fun hc => Bool.false_ne_true (h2 ▸ hc)),
      if_neg (fun hc => Bool.false_ne_true (h3 ▸ hc)), if_neg (fun hc => Bool.false_ne_true (h4 ▸ hc)),
      if_neg (fun hc => Bool.false_ne_true (h5 ▸ hc)), if_neg (fun hc => Bool.false_ne_true (h6 ▸ hc))]

/-- C2 witness: FooImageModel contains image (and not embedding) in its
lowered name, so the classifier (applied via the priority clause)
returns image. -/
theorem categoryOf_total_priority_witness :
    categoryOf "FooImageModel".toList = "image".toList :=
  (categoryOf_total_priority "FooImageModel".toList).2.2.1
    (by decide) (by decide)

/-- C3: the literal extractor returns exactly the ordered sequence
of single-quoted literals of a definition text, quotes stripped: for
any definition rendered as a leading fragment followed by quoted
literals with interleaved separator fragments (bare identifiers,
numbers, the open string-intersection idiom — anything without a
quote), the result is the literal sequence in order, and the
non-literal members are simply absent, with no failure. -/
theorem extractLiterals_ordered_literals (lead : Str)
    (parts : List (Str × Str))
    (hlead : ∀ c ∈ lead, c ≠ squote)
    (hparts : ∀ pr ∈ parts, pr.1 ≠ [] ∧ (∀ c ∈ pr.1, c ≠ squote) ∧
      (∀ c ∈ pr.2, c ≠ squote)) :
    extractLiterals (renderUnion lead parts) =
      parts.map (fun pr => pr.1) := by
  unfold renderUnion extractLiterals
  rw [scanLit_skip lead _ hlead]
  induction parts with
  | nil => rfl
  | cons pr t ih =>
    rcases hparts pr (List.mem_cons_self pr t) with ⟨hne, hq1, hq2⟩
    rw [List.flatMap_cons, List.map_cons]
    have hshape :
        (squote :: pr.1 ++ squote :: pr.2) ++
            t.flatMap (fun pr => squote :: pr.1 ++ squote :: pr.2)
          = (squote :: pr.1) ++
              squote :: (pr.2 ++
                t.flatMap (fun pr => squote :: pr.1 ++ squote :: pr.2)) := by
      simp [List.append_assoc]
    rw [hshape, scanLit_quoted pr.1 _ hne hq1, scanLit_skip pr.2 _ hq2]
    rw [ih (fun pr hpr => hparts pr (List.mem_cons_of_mem _ hpr))]

/-- C3 witness: the rendered union with literals a-1 and a-2 and an
open string-intersection tail extracts exactly those two literals. -/
theorem extractLiterals_ordered_literals_witness :
    extractLiterals (renderUnion []
      [("a-1".toList, " | ".toList),
       ("a-2".toList, " | (string & \x7b\x7d)".toList)]) =
      ["a-1".toList, "a-2".toList] :=
  extractLiterals_ordered_literals []
    [("a-1".toList, " | ".toList),
     ("a-2".toList, " | (string & \x7b\x7d)".toList)]
    (by decide) (by decide)

/-- C4 counterexample: the claim quantifies over every input
ProviderCollection, but on the degenerate collection with one provider
holding no records, the nested registry lists the provider while the
flat list is empty, so the two views do not contain the same set of
providers. -/
theorem flat_nested_consistent_cex :
    ¬ (∀ p : Str,
        p ∈ (generateFlatList pmDegenerate).map (fun e => e.provider) ↔
          p ∈ (generateNested pmDegenerate).map (fun pe => pe.1)) :=
  fun h => absurd ((h "p".toList).mpr (by decide)) (by decide)

/-- C4 (amended): for every ProviderCollection in which each provider
has at least one record and each record has a nonempty model list (as
extraction guarantees), the flat list and the nested registry are
mutually consistent: the flat length equals the sum of all nested
model-list lengths (this part needs no hypothesis), and the two views
contain the same providers and the same categories. -/
theorem flat_nested_consistent (pm : ProviderModels)
    (hne : ∀ pe ∈ pm, pe.2 ≠ [] ∧ ∀ mt ∈ pe.2, mt.models ≠ []) :
    (generateFlatList pm).length = nestedModelCount (generateNested pm)
    ∧ (∀ p, p ∈ (generateFlatList pm).map (fun e => e.provider) ↔
        p ∈ (generateNested pm).map (fun pe => pe.1))
    ∧ (∀ c, c ∈ (generateFlatList pm).map (fun e => e.category) ↔
        c ∈ nestedCategories (generateNested pm)) := by
  refine ⟨generateFlatList_length pm, ?_, ?_⟩
  · intro p
    rw [mem_flatProviders, generateNested_keys]
    constructor
    · rintro ⟨pe, hpe, hp1, _, _, _⟩
      exact List.mem_map.mpr ⟨pe, hpe, hp1⟩
    · intro hp
      rcases List.mem_map.mp hp with ⟨pe, hpe, hp1⟩
      rcases hne pe hpe with ⟨hne1, hne2⟩
      rcases List.exists_mem_of_ne_nil _ hne1 with ⟨mt, hmt⟩
      exact ⟨pe, hpe, hp1, mt, hmt, hne2 mt hmt⟩
  · intro c
    rw [mem_flatCategories, mem_nestedCategories_iff]
    constructor
    · rintro ⟨pe, hpe, mt, hmt, hc, _⟩
      exact ⟨pe, hpe, mt, hmt, hc⟩
    · rintro ⟨pe, hpe, mt, hmt, hc⟩
      exact ⟨pe, hpe, mt, hmt, hc, (hne pe hpe).2 mt hmt⟩

/-- C4 witness: the end-to-end collection satisfies the amended
hypotheses and its flat length equals the nested model count. -/
theorem flat_nested_consistent_witness :
    (generateFlatList pm9).length = nestedModelCount (generateNested pm9) :=
  (flat_nested_consistent pm9 (by decide)).1

/-- C5: the registry build is deterministic, and the flat sequence is
exactly the canonical triple-nested enumeration the specification
states (providers in discovery order, records in capture order, models
in extraction order). -/
theorem registry_deterministic_canonical_order (pm : ProviderModels) :
    generateFlatList pm = specCanonicalFlat pm
    ∧ (∀ pm' : ProviderModels, pm = pm' →
        generateFlatList pm = generateFlatList pm' ∧
        generateNested pm = generateNested pm') := by
  constructor
  · unfold generateFlatList specCanonicalFlat
    simp [List.flatMap_def]
  · intro pm' h
    exact ⟨congrArg generateFlatList h, congrArg generateNested h⟩

/-- C5 witness: both determinism conjuncts evaluated on the end-to-end
collection. -/
theorem registry_deterministic_canonical_order_witness :
    generateFlatList pm9 = specCanonicalFlat pm9
    ∧ (generateFlatList pm9 = generateFlatList pm9 ∧
       generateNested pm9 = generateNested pm9) :=
  ⟨(registry_deterministic_canonical_order pm9).1,
   (registry_deterministic_canonical_order pm9).2 pm9 rfl⟩

/-- C6: the emitted query helpers have no failure mode: the result is
exactly the flat entries whose field is strictly equal to the argument
(case-sensitively, with no normalization); a null or undefined
argument, or any argument matching no entry (unknown, empty,
whitespace-only), yields the empty list, never an error. -/
theorem queryHelpers_total_strict (flat : List FlatEntry)
    (arg : Option Str) :
    ((arg = none → getModelsByProvider flat arg = [])
    ∧ (∀ e, e ∈ getModelsByProvider flat arg ↔
        e ∈ flat ∧ some e.provider = arg)
    ∧ (∀ p, arg = some p → (∀ e ∈ flat, e.provider ≠ p) →
        getModelsByProvider flat arg = []))
    ∧ ((arg = none → getModelsByCategory flat arg = [])
    ∧ (∀ e, e ∈ getModelsByCategory flat arg ↔
        e ∈ flat ∧ some e.category = arg)
    ∧ (∀ p, arg = some p → (∀ e ∈ flat, e.category ≠ p) →
        getModelsByCategory flat arg = [])) := by
  refine ⟨⟨?_, ?_, ?_⟩, ⟨?_, ?_, ?_⟩⟩
  · intro h
    subst h
    simp [getModelsByProvider, jsStrictEqStr, List.filter_eq_nil_iff]
  · intro e
    unfold getModelsByProvider
    rw [List.mem_filter]
    cases arg with
    | none => simp [jsStrictEqStr]
    | some t => simp [jsStrictEqStr, beq_iff_eq, Option.some.injEq]
  · intro p h hne
    subst h
    unfold getModelsByProvider
    rw [List.filter_eq_nil_iff]
    intro e he
    simp [jsStrictEqStr, beq_iff_eq]
    exact hne e he
  · intro h
    subst h
    simp [getModelsByCategory, jsStrictEqStr, List.filter_eq_nil_iff]
  · intro e
    unfold getModelsByCategory
    rw [List.mem_filter]
    cases arg with
    | none => simp [jsStrictEqStr]
    | some t => simp [jsStrictEqStr, beq_iff_eq, Option.some.injEq]
  · intro p h hne
    subst h
    unfold getModelsByCategory
    rw [List.filter_eq_nil_iff]
    intro e he
    simp [jsStrictEqStr, beq_iff_eq]
    exact hne e he

/-- C6 witness: on a flat list with one openai chat entry, a null
argument and an unknown provider both give the empty list. -/
theorem queryHelpers_total_strict_witness :
    getModelsByProvider flatW none = []
    ∧ getModelsByProvider flatW (some "NONEXISTENT".toList) = []
    ∧ getModelsByCategory flatW none = [] :=
  ⟨(queryHelpers_total_strict flatW none).1.1 rfl,
   (queryHelpers_total_strict flatW (some "NONEXISTENT".toList)).1.2.2
     "NONEXISTENT".toList rfl (by decide),
   (queryHelpers_total_strict flatW none).2.1 rfl⟩

/-- C7: every flat entry's value field is the provider field, a colon,
and the model field, concatenated. -/
theorem flat_value_format (pm : ProviderModels) :
    ∀ e ∈ generateFlatList pm,
      e.value = e.provider ++ ":".toList ++ e.model := by
  intro e he
  unfold generateFlatList at he
  rw [List.mem_flatMap] at he
  rcases he with ⟨pe, _, he⟩
  rw [List.mem_flatMap] at he
  rcases he with ⟨mt, _, he⟩
  rcases List.mem_map.mp he with ⟨m, _, hm⟩
  subst hm
  rfl

/-- C7 witness: the first end-to-end flat entry's value is
foo-bar:a-1. -/
theorem flat_value_format_witness :
    (⟨"foo-bar".toList, "a-1".toList, "chat".toList,
      "foo-bar:a-1".toList⟩ : FlatEntry).value =
      "foo-bar".toList ++ ":".toList ++ "a-1".toList :=
  flat_value_format pm9
    ⟨"foo-bar".toList, "a-1".toList, "chat".toList, "foo-bar:a-1".toList⟩
    (by decide)

/-- C8: an alias named OpenAIResponsesModelId is never recorded: no
record with that alias name ever appears in the extraction output,
whatever the declaration text and whichever pattern matched it. -/
theorem oaiResponses_never_recorded (content : Str) :
    ∀ r ∈ extractModelTypes content, r.typeName ≠ oaiExcluded := by
  intro r hr
  rw [extractModelTypes_eq_firstWins] at hr
  unfold firstWins at hr
  have hmem := foldl_insert_mem ModelType.typeName _ r hr
  rcases List.mem_filterMap.mp hmem with ⟨m, _, hm⟩
  rcases candidateOf_shape m r hm with ⟨h1, _, _, h4, _⟩
  rw [h1]
  exact h4

/-- C8 witness: the record extracted from an ordinary declaration has
an alias name different from the excluded one. -/
theorem oaiResponses_never_recorded_witness :
    (⟨"BarModelId".toList, ["m".toList], "chat".toList⟩ : ModelType).typeName
      ≠ oaiExcluded :=
  oaiResponses_never_recorded contentBar
    ⟨"BarModelId".toList, ["m".toList], "chat".toList⟩ (by decide)

/-- C9: the provider prefix splits the identifier on the separator
class, capitalizes each segment and concatenates; end to end, provider
foo-bar with the FooChatModelId declaration yields the single chat
record with models a-1, a-2, unique type name FooBarFooChatModelId,
and exactly the two flat entries foo-bar:a-1 and foo-bar:a-2. -/
theorem providerPrefix_e2e_scenario :
    createProviderPrefix "foo-bar".toList = "FooBar".toList
    ∧ extractModelTypes content9 =
        [⟨"FooChatModelId".toList, ["a-1".toList, "a-2".toList],
          "chat".toList⟩]
    ∧ uniqueTypeName "foo-bar".toList "FooChatModelId".toList =
        "FooBarFooChatModelId".toList
    ∧ generateFlatList pm9 =
        [⟨"foo-bar".toList, "a-1".toList, "chat".toList,
          "foo-bar:a-1".toList⟩,
         ⟨"foo-bar".toList, "a-2".toList, "chat".toList,
          "foo-bar:a-2".toList⟩] :=
  ⟨by decide, by decide, by decide, by decide⟩

/-- C10: every model string anywhere in the extraction output is
nonempty — the literal pattern needs at least one character between
the quotes, so the empty literal is never extracted — and hence every
flat entry built from extracted collections has a nonempty model. -/
theorem models_nonempty (content : Str) (inputs : List (Str × Str)) :
    (∀ r ∈ extractModelTypes content, ∀ m ∈ r.models, m ≠ [])
    ∧ (∀ e ∈ generateFlatList (buildProviderModels inputs), e.model ≠ [])
    ∧ extractLiterals [squote, squote] = [] := by
  refine ⟨extract_models_ne_nil content, ?_, rfl⟩
  intro e he
  unfold generateFlatList at he
  rw [List.mem_flatMap] at he
  rcases he with ⟨pe, hpe, he⟩
  rw [List.mem_flatMap] at he
  rcases he with ⟨mt, hmt, he⟩
  rcases List.mem_map.mp he with ⟨m, hm, hme⟩
  subst hme
  unfold buildProviderModels at hpe
  rcases List.mem_filterMap.mp hpe with ⟨inp, _, hinp⟩
  by_cases hie : (extractModelTypes inp.2).isEmpty = true
  · rw [if_pos hie] at hinp
    cases hinp
  · rw [if_neg hie] at hinp
    injection hinp with hinp
    subst hinp
    exact extract_models_ne_nil inp.2 mt hmt m hm

/-- C10 witness: the model a-1 of the end-to-end extraction is
nonempty. -/
theorem models_nonempty_witness : "a-1".toList ≠ ([] : Str) :=
  (models_nonempty content9 [("foo-bar".toList, content9)]).1
    ⟨"FooChatModelId".toList, ["a-1".toList, "a-2".toList], "chat".toList⟩
    (by decide) "a-1".toList (by decide)
